import Mathlib

/-!
# Verification of `mediocremap` (src/lib.rs)

Shallow embedding of the Rust crate `mediocremap`, a bucket-array hash map
`MediocreMap<K, V>` with `lookup : Vec<Option<Vec<(K, Box<V>)>>>`.

Modelling choices, faithful to the source:
* Keys are byte strings (`K: AsRef<[u8]> + PartialEq<K>` specialised to the
  byte-string view the code hashes and compares): `Key := List Nat`.
* `Box<V>` is transparent; values are plain `V`.
* `Vec<Option<Vec<(K, Box<V>)>>>` becomes `List (Option (List (Key × V)))`.
* `Vec::with_capacity` only reserves storage; its observable length is `0`,
  so `with_capacity` yields the same map value as `new`.
* The fallible index operation (`std::ops::Index`, which `unwrap`s) is
  modelled with `Except`, the panic being the `error` branch.
* `remove(&mut self, key) -> Option<V>` is modelled as a function returning
  the pair (returned option, updated map).
-/

set_option autoImplicit false

abbrev Key := List Nat

structure MediocreMap (V : Type) where
  lookup : List (Option (List (Key × V)))
deriving DecidableEq

namespace MediocreMap

variable {V : Type}

/-- `fn hash(input: &[u8]) -> usize`: XOR-fold of the key bytes, starting
from `0`. -/
def hash (input : List Nat) : Nat :=
  input.foldl (fun state x => state ^^^ x) 0

/-- `MediocreMap::new`: the empty map, with an empty bucket vector. -/
def new : MediocreMap V := ⟨[]⟩

/-- `MediocreMap::with_capacity(cap)`: `Vec::with_capacity` reserves
allocation only; the vector's length is `0`, identical to `new`. -/
def with_capacity (_cap : Nat) : MediocreMap V := ⟨[]⟩

/-- `self.lookup.resize_with(index + 1, || None)` guarded by
`if self.lookup.len() <= index`. -/
def resizeTo (l : List (Option (List (Key × V)))) (index : Nat) :
    List (Option (List (Key × V))) :=
  if l.length ≤ index then l ++ List.replicate (index + 1 - l.length) none else l

/-- The overwrite path of `insert`: find the first entry whose key equals
`key` (`bucket.iter().enumerate().find(|(_, (k, _))| k == &key)`) and replace
it in place with `(key, Box::new(value))`; `none` when no entry matches
(in which case the source does nothing). -/
def overwriteEntry (key : Key) (value : V) : List (Key × V) → Option (List (Key × V))
  | [] => none
  | p :: rest =>
    if p.1 == key then some ((key, value) :: rest)
    else match overwriteEntry key value rest with
      | some rest2 => some (p :: rest2)
      | none => none

/-- `MediocreMap::insert(&mut self, key, value)`. -/
def insert (key : Key) (value : V) (m : MediocreMap V) : MediocreMap V :=
  let index := hash key
  let l := resizeTo m.lookup index
  match l.getD index none with
  | some b =>
    match overwriteEntry key value b with
    | some b2 => ⟨l.set index (some b2)⟩
    | none => ⟨l⟩
  | none => ⟨l.set index (some [(key, value)])⟩

/-- The removal path of `remove`: find the first entry whose key equals
`key` and detach it (`bucket.remove(idx)` shifts the tail left, keeping
order); returns the removed value and the remaining chain. -/
def removeEntry (key : Key) : List (Key × V) → Option (V × List (Key × V))
  | [] => none
  | p :: rest =>
    if p.1 == key then some (p.2, rest)
    else match removeEntry key rest with
      | some (v, rest2) => some (v, p :: rest2)
      | none => none

/-- `MediocreMap::remove(&mut self, key) -> Option<V>`, as (result, state). -/
def remove (key : Key) (m : MediocreMap V) : Option V × MediocreMap V :=
  let index := hash key
  match m.lookup[index]? with
  | some (some b) =>
    match removeEntry key b with
    | some (v, b2) => (some v, ⟨m.lookup.set index (some b2)⟩)
    | none => (none, m)
  | _ => (none, m)

/-- `MediocreMap::get(&self, key) -> Option<&V>`. -/
def get (key : Key) (m : MediocreMap V) : Option V :=
  match m.lookup[hash key]? with
  | some (some b) => (b.find? (fun p => p.1 == key)).map Prod.snd
  | _ => none

/-- `MediocreMap::iter` (also `iter_mut` / `into_iter`): walk the buckets in
index order, skipping `None`, and yield each chain's entries in stored
order. -/
def iterList (m : MediocreMap V) : List (Key × V) :=
  (m.lookup.filterMap id).flatten

/-- The spec's `capacity`: the current length of the bucket vector. -/
def capacity (m : MediocreMap V) : Nat := m.lookup.length

/-- Modelled from the spec: the `len()` accessor is absent from the source;
per spec §3/§4.4 it returns `count`, the number of live entries across all
chains (the sum of the chain lengths). -/
def len (m : MediocreMap V) : Nat :=
  (m.lookup.map (fun b => (b.getD []).length)).sum

/-- `impl From<[(K, V); N]> for MediocreMap<K, V>`: fold `insert` over the
array, starting from `with_capacity(len)`. -/
def from_array (l : List (Key × V)) : MediocreMap V :=
  l.foldl (fun state x => insert x.1 x.2 state) (with_capacity l.length)

/-- `impl FromIterator<(K, V)> for MediocreMap<K, V>`: fold `insert` over
the iterator, starting from `new`. -/
def from_iter (l : List (Key × V)) : MediocreMap V :=
  l.foldl (fun state x => insert x.1 x.2 state) new

/-- Spec-side reference for bulk construction (§4.4): construct an empty
container and call `insert` for each pair in order. -/
def spec_bulkConstruct (l : List (Key × V)) : MediocreMap V :=
  l.foldl (fun state x => insert x.1 x.2 state) new

/-- `impl std::ops::Index<K>`: `self.get(&index).unwrap()`; the panic of
`unwrap` on a missing key is the `Except.error` branch. -/
def index (key : Key) (m : MediocreMap V) : Except Unit V :=
  match get key m with
  | some v => Except.ok v
  | none => Except.error ()

/-- Map states reachable through the public mutating API, starting from
construction (`new`; `with_capacity` produces the identical value, and both
bulk constructors are folds of `insert`). -/
inductive Reach : MediocreMap V → Prop
  | base : Reach new
  | step_insert (k : Key) (v : V) (m : MediocreMap V) :
      Reach m → Reach (insert k v m)
  | step_remove (k : Key) (m : MediocreMap V) :
      Reach m → Reach (remove k m).2

/-- Structural invariant of reachable maps: every stored chain has at most
one entry, and every entry sits in the bucket indexed by its key's hash. -/
def WF (m : MediocreMap V) : Prop :=
  ∀ i ch, m.lookup[i]? = some (some ch) →
    ch.length ≤ 1 ∧ ∀ p ∈ ch, hash p.1 = i

/-! ## Basic structural lemmas -/

theorem mk_lookup (m : MediocreMap V) : (⟨m.lookup⟩ : MediocreMap V) = m := rfl

theorem resizeTo_length (l : List (Option (List (Key × V)))) (i : Nat) :
    (resizeTo l i).length = max l.length (i + 1) := by
  unfold resizeTo
  split <;> simp <;> omega

theorem resizeTo_of_lt {l : List (Option (List (Key × V)))} {i : Nat}
    (h : i < l.length) : resizeTo l i = l := by
  unfold resizeTo
  rw [if_neg (by omega)]

theorem resizeTo_getElem?_lt {l : List (Option (List (Key × V)))} {i j : Nat}
    (h : j < l.length) : (resizeTo l i)[j]? = l[j]? := by
  unfold resizeTo
  split
  · rw [List.getElem?_append_left h]
  · rfl

theorem resizeTo_getElem?_ge {l : List (Option (List (Key × V)))} {i j : Nat}
    (h1 : l.length ≤ j) (h2 : j ≤ i) : (resizeTo l i)[j]? = some none := by
  unfold resizeTo
  rw [if_pos (by omega), List.getElem?_append_right h1,
    List.getElem?_replicate, if_pos (by omega)]

theorem getD_none_eq_some_iff {l : List (Option (List (Key × V)))} {i : Nat}
    {b : List (Key × V)} :
    l.getD i none = some b ↔ l[i]? = some (some b) := by
  rw [List.getD_eq_getElem?_getD]
  cases h : l[i]? with
  | none => simp
  | some o => cases o <;> simp

theorem getD_none_eq_none_iff {l : List (Option (List (Key × V)))} {i : Nat} :
    l.getD i none = none ↔ (l[i]? = some none ∨ l[i]? = none) := by
  rw [List.getD_eq_getElem?_getD]
  cases h : l[i]? with
  | none => simp
  | some o => cases o <;> simp

theorem resizeTo_getD (l : List (Option (List (Key × V)))) (i : Nat) :
    (resizeTo l i).getD i none = l.getD i none := by
  by_cases h : i < l.length
  · rw [resizeTo_of_lt h]
  · rw [List.getD_eq_getElem?_getD, List.getD_eq_getElem?_getD,
      resizeTo_getElem?_ge (by omega) (Nat.le_refl i),
      List.getElem?_eq_none (l := l) (by omega)]
    rfl

/-! ## `overwriteEntry` lemmas -/

theorem overwriteEntry_eq_none_iff {k : Key} {v : V} {b : List (Key × V)} :
    overwriteEntry k v b = none ↔ b.find? (fun p => p.1 == k) = none := by
  induction b with
  | nil => simp [overwriteEntry]
  | cons p rest ih =>
    by_cases h : p.1 == k
    · simp [overwriteEntry, h, List.find?_cons_of_pos _ h]
    · rw [List.find?_cons_of_neg _ (by simp [h])]
      unfold overwriteEntry
      rw [if_neg h, ← ih]
      cases overwriteEntry k v rest <;> simp

theorem overwriteEntry_length {k : Key} {v : V} {b b2 : List (Key × V)}
    (h : overwriteEntry k v b = some b2) : b2.length = b.length := by
  induction b generalizing b2 with
  | nil => simp [overwriteEntry] at h
  | cons p rest ih =>
    unfold overwriteEntry at h
    by_cases hp : p.1 == k
    · rw [if_pos hp] at h
      cases h
      simp
    · rw [if_neg hp] at h
      cases hrec : overwriteEntry k v rest with
      | none => rw [hrec] at h; exact absurd h (by simp)
      | some rest2 =>
        rw [hrec] at h
        cases h
        simp [ih hrec]

theorem overwriteEntry_mem {k : Key} {v : V} {b b2 : List (Key × V)}
    (h : overwriteEntry k v b = some b2) :
    ∀ p ∈ b2, p = (k, v) ∨ p ∈ b := by
  induction b generalizing b2 with
  | nil => simp [overwriteEntry] at h
  | cons q rest ih =>
    unfold overwriteEntry at h
    by_cases hq : q.1 == k
    · rw [if_pos hq] at h
      cases h
      intro p hp
      rcases List.mem_cons.1 hp with h1 | h1
      · exact Or.inl h1
      · exact Or.inr (List.mem_cons_of_mem _ h1)
    · rw [if_neg hq] at h
      cases hrec : overwriteEntry k v rest with
      | none => rw [hrec] at h; exact absurd h (by simp)
      | some rest2 =>
        rw [hrec] at h
        cases h
        intro p hp
        rcases List.mem_cons.1 hp with h1 | h1
        · exact Or.inr (h1 ▸ List.mem_cons_self _ _)
        · rcases ih hrec p h1 with h2 | h2
          · exact Or.inl h2
          · exact Or.inr (List.mem_cons_of_mem _ h2)

theorem overwriteEntry_find?_self {k : Key} {v : V} {b b2 : List (Key × V)}
    (h : overwriteEntry k v b = some b2) :
    b2.find? (fun p => p.1 == k) = some (k, v) := by
  induction b generalizing b2 with
  | nil => simp [overwriteEntry] at h
  | cons q rest ih =>
    unfold overwriteEntry at h
    by_cases hq : q.1 == k
    · rw [if_pos hq] at h
      cases h
      exact List.find?_cons_of_pos _ (by simp)
    · rw [if_neg hq] at h
      cases hrec : overwriteEntry k v rest with
      | none => rw [hrec] at h; exact absurd h (by simp)
      | some rest2 =>
        rw [hrec] at h
        cases h
        rw [List.find?_cons_of_neg _ (by simpa using hq)]
        exact ih hrec

theorem overwriteEntry_find?_ne {k k2 : Key} {v : V} {b b2 : List (Key × V)}
    (hne : k2 ≠ k) (h : overwriteEntry k v b = some b2) :
    b2.find? (fun p => p.1 == k2) = b.find? (fun p => p.1 == k2) := by
  induction b generalizing b2 with
  | nil => simp [overwriteEntry] at h
  | cons q rest ih =>
    unfold overwriteEntry at h
    by_cases hq : q.1 == k
    · rw [if_pos hq] at h
      cases h
      have hqk : q.1 = k := by simpa using hq
      rw [List.find?_cons_of_neg _ (by simp [Ne.symm hne]),
        List.find?_cons_of_neg _ (by simp [hqk, Ne.symm hne])]
    · rw [if_neg hq] at h
      cases hrec : overwriteEntry k v rest with
      | none => rw [hrec] at h; exact absurd h (by simp)
      | some rest2 =>
        rw [hrec] at h
        cases h
        by_cases hq2 : q.1 == k2
        · rw [List.find?_cons_of_pos (p := fun p : Key × V => p.1 == k2) _ hq2,
            List.find?_cons_of_pos (p := fun p : Key × V => p.1 == k2) _ hq2]
        · rw [List.find?_cons_of_neg _ (by simpa using hq2),
            List.find?_cons_of_neg _ (by simpa using hq2)]
          exact ih hrec

/-! ## `removeEntry` lemmas -/

theorem removeEntry_eq_none_iff {k : Key} {b : List (Key × V)} :
    removeEntry k b = none ↔ b.find? (fun p => p.1 == k) = none := by
  induction b with
  | nil => simp [removeEntry]
  | cons p rest ih =>
    by_cases h : p.1 == k
    · simp [removeEntry, h, List.find?_cons_of_pos _ h]
    · rw [List.find?_cons_of_neg _ (by simp [h])]
      unfold removeEntry
      rw [if_neg h, ← ih]
      cases removeEntry k rest with
      | none => simp
      | some pr => cases pr; simp

theorem removeEntry_of_find? {k : Key} {b : List (Key × V)} {p : Key × V}
    (h : b.find? (fun q => q.1 == k) = some p) :
    ∃ b2, removeEntry k b = some (p.2, b2) := by
  induction b with
  | nil => simp at h
  | cons q rest ih =>
    by_cases hq : q.1 == k
    · rw [List.find?_cons_of_pos (p := fun q : Key × V => q.1 == k) _ hq] at h
      cases h
      exact ⟨rest, by unfold removeEntry; rw [if_pos hq]⟩
    · rw [List.find?_cons_of_neg _ (by simpa using hq)] at h
      rcases ih h with ⟨b2, hb2⟩
      refine ⟨q :: b2, ?_⟩
      unfold removeEntry
      rw [if_neg hq, hb2]

theorem removeEntry_mem {k : Key} {b b2 : List (Key × V)} {v : V}
    (h : removeEntry k b = some (v, b2)) : ∀ p ∈ b2, p ∈ b := by
  induction b generalizing b2 with
  | nil => simp [removeEntry] at h
  | cons q rest ih =>
    unfold removeEntry at h
    by_cases hq : q.1 == k
    · rw [if_pos hq] at h
      cases h
      exact fun p hp => List.mem_cons_of_mem _ hp
    · rw [if_neg hq] at h
      cases hrec : removeEntry k rest with
      | none => rw [hrec] at h; exact absurd h (by simp)
      | some pr =>
        cases pr with
        | mk v2 rest2 =>
          rw [hrec] at h
          cases h
          intro p hp
          rcases List.mem_cons.1 hp with h1 | h1
          · exact h1 ▸ List.mem_cons_self _ _
          · exact List.mem_cons_of_mem _ (ih hrec p h1)

theorem removeEntry_length {k : Key} {b b2 : List (Key × V)} {v : V}
    (h : removeEntry k b = some (v, b2)) : b2.length + 1 = b.length := by
  induction b generalizing b2 with
  | nil => simp [removeEntry] at h
  | cons q rest ih =>
    unfold removeEntry at h
    by_cases hq : q.1 == k
    · rw [if_pos hq] at h
      cases h
      rfl
    · rw [if_neg hq] at h
      cases hrec : removeEntry k rest with
      | none => rw [hrec] at h; exact absurd h (by simp)
      | some pr =>
        cases pr with
        | mk v2 rest2 =>
          rw [hrec] at h
          cases h
          simpa using ih hrec

/-! ## Branch equations for `insert`, `get` and `remove` -/

theorem bucket_some_lt {m : MediocreMap V} {i : Nat} {b : List (Key × V)}
    (h : m.lookup.getD i none = some b) : i < m.lookup.length := by
  have h2 := getD_none_eq_some_iff.1 h
  by_contra hge
  rw [List.getElem?_eq_none (by omega)] at h2
  exact absurd h2 (by simp)

theorem insert_eq_of_bucket_none {m : MediocreMap V} {k : Key} {v : V}
    (h : m.lookup.getD (hash k) none = none) :
    insert k v m = ⟨(resizeTo m.lookup (hash k)).set (hash k) (some [(k, v)])⟩ := by
  unfold insert
  dsimp only
  rw [resizeTo_getD, h]

theorem insert_eq_of_overwrite {m : MediocreMap V} {k : Key} {v : V}
    {b b2 : List (Key × V)} (hb : m.lookup.getD (hash k) none = some b)
    (how : overwriteEntry k v b = some b2) :
    insert k v m = ⟨m.lookup.set (hash k) (some b2)⟩ := by
  unfold insert
  dsimp only
  rw [resizeTo_getD, hb, resizeTo_of_lt (bucket_some_lt hb)]
  simp only [how]

theorem insert_eq_of_drop {m : MediocreMap V} {k : Key} {v : V}
    {b : List (Key × V)} (hb : m.lookup.getD (hash k) none = some b)
    (how : overwriteEntry k v b = none) :
    insert k v m = m := by
  unfold insert
  dsimp only
  rw [resizeTo_getD, hb, resizeTo_of_lt (bucket_some_lt hb)]
  simp only [how, mk_lookup]

theorem get_of_ge {m : MediocreMap V} {k : Key}
    (h : m.lookup.length ≤ hash k) : get k m = none := by
  unfold get
  rw [List.getElem?_eq_none h]

theorem get_bucket {m : MediocreMap V} {k : Key} {b : List (Key × V)}
    (h : m.lookup[hash k]? = some (some b)) :
    get k m = (b.find? (fun p => p.1 == k)).map Prod.snd := by
  unfold get
  rw [h]

theorem get_bucket_none {m : MediocreMap V} {k : Key}
    (h : m.lookup[hash k]? = some none) : get k m = none := by
  unfold get
  rw [h]

theorem get_none_cases {m : MediocreMap V} {k : Key} (h : get k m = none) :
    m.lookup[hash k]? = none ∨ m.lookup[hash k]? = some none ∨
      ∃ b, m.lookup[hash k]? = some (some b) ∧
        b.find? (fun p => p.1 == k) = none := by
  cases hx : m.lookup[hash k]? with
  | none => exact Or.inl rfl
  | some o =>
    cases o with
    | none => exact Or.inr (Or.inl rfl)
    | some b =>
      refine Or.inr (Or.inr ⟨b, rfl, ?_⟩)
      rw [get_bucket hx] at h
      cases hf : b.find? (fun p => p.1 == k) with
      | none => rfl
      | some p => rw [hf] at h; exact absurd h (by simp)

theorem get_some_cases {m : MediocreMap V} {k : Key} {v : V}
    (h : get k m = some v) :
    ∃ b p, m.lookup[hash k]? = some (some b) ∧
      b.find? (fun q => q.1 == k) = some p ∧ p.2 = v ∧ p.1 = k := by
  cases hx : m.lookup[hash k]? with
  | none =>
    rw [get_of_ge (List.getElem?_eq_none_iff.1 hx)] at h
    exact absurd h (by simp)
  | some o =>
    cases o with
    | none =>
      rw [get_bucket_none hx] at h
      exact absurd h (by simp)
    | some b =>
      rw [get_bucket hx] at h
      cases hf : b.find? (fun q => q.1 == k) with
      | none => rw [hf] at h; exact absurd h (by simp)
      | some p =>
        rw [hf] at h
        have hp2 : p.2 = v := by simpa using h
        have hp1 : p.1 = k := by simpa using List.find?_some hf
        exact ⟨b, p, rfl, hf, hp2, hp1⟩

theorem remove_of_oob {m : MediocreMap V} {k : Key}
    (h : m.lookup[hash k]? = none) : remove k m = (none, m) := by
  unfold remove
  dsimp only
  rw [h]

theorem remove_of_bucket_none {m : MediocreMap V} {k : Key}
    (h : m.lookup[hash k]? = some none) : remove k m = (none, m) := by
  unfold remove
  dsimp only
  rw [h]

theorem remove_of_find_none {m : MediocreMap V} {k : Key} {b : List (Key × V)}
    (hb : m.lookup[hash k]? = some (some b)) (hf : removeEntry k b = none) :
    remove k m = (none, m) := by
  unfold remove
  dsimp only
  rw [hb]
  dsimp only
  rw [hf]

theorem remove_of_miss {m : MediocreMap V} {k : Key} (h : get k m = none) :
    remove k m = (none, m) := by
  rcases get_none_cases h with hx | hx | ⟨b, hx, hf⟩
  · exact remove_of_oob hx
  · exact remove_of_bucket_none hx
  · exact remove_of_find_none hx (removeEntry_eq_none_iff.2 hf)

theorem remove_of_hit {m : MediocreMap V} {k : Key} {v : V}
    {b b2 : List (Key × V)} (hb : m.lookup[hash k]? = some (some b))
    (hr : removeEntry k b = some (v, b2)) :
    remove k m = (some v, ⟨m.lookup.set (hash k) (some b2)⟩) := by
  unfold remove
  dsimp only
  rw [hb]
  dsimp only
  rw [hr]

/-! ## Effect of `insert` on capacity, other keys, and the entry count -/

theorem get_congr {m1 m2 : MediocreMap V} {k : Key}
    (h : m1.lookup[hash k]? = m2.lookup[hash k]?) : get k m1 = get k m2 := by
  unfold get
  rw [h]

theorem lookup_length_insert (k : Key) (v : V) (m : MediocreMap V) :
    (insert k v m).lookup.length = max m.lookup.length (hash k + 1) := by
  cases hb : m.lookup.getD (hash k) none with
  | none =>
    rw [insert_eq_of_bucket_none hb]
    show ((resizeTo m.lookup (hash k)).set (hash k) (some [(k, v)])).length = _
    rw [List.length_set, resizeTo_length]
  | some b =>
    have hlt := bucket_some_lt hb
    cases how : overwriteEntry k v b with
    | some b2 =>
      rw [insert_eq_of_overwrite hb how]
      show (m.lookup.set (hash k) (some b2)).length = _
      rw [List.length_set]
      omega
    | none =>
      rw [insert_eq_of_drop hb how]
      omega

theorem get_insert_of_hash_ne {m : MediocreMap V} {k k2 : Key} {v : V}
    (h : hash k2 ≠ hash k) : get k2 (insert k v m) = get k2 m := by
  by_cases hj : hash k2 < m.lookup.length
  · apply get_congr
    cases hb : m.lookup.getD (hash k) none with
    | none =>
      rw [insert_eq_of_bucket_none hb]
      exact (List.getElem?_set_ne (Ne.symm h)).trans (resizeTo_getElem?_lt hj)
    | some b =>
      cases how : overwriteEntry k v b with
      | some b2 =>
        rw [insert_eq_of_overwrite hb how]
        exact List.getElem?_set_ne (Ne.symm h)
      | none => rw [insert_eq_of_drop hb how]
  · rw [get_of_ge (m := m) (k := k2) (by omega)]
    by_cases hj2 : (insert k v m).lookup.length ≤ hash k2
    · rw [get_of_ge hj2]
    · have hlen := lookup_length_insert k v m
      rw [hlen] at hj2
      have h2 : m.lookup.length ≤ hash k := by omega
      have hb : m.lookup.getD (hash k) none = none := by
        rw [List.getD_eq_getElem?_getD, List.getElem?_eq_none h2]
        rfl
      apply get_bucket_none
      rw [insert_eq_of_bucket_none hb]
      exact (List.getElem?_set_ne (Ne.symm h)).trans
        (resizeTo_getElem?_ge (by omega) (by omega))

theorem insert_getElem?_self (k : Key) (v : V) (m : MediocreMap V) :
    ∃ b, (insert k v m).lookup[hash k]? = some (some b) := by
  cases hb : m.lookup.getD (hash k) none with
  | none =>
    refine ⟨[(k, v)], ?_⟩
    rw [insert_eq_of_bucket_none hb]
    exact List.getElem?_set_self (by rw [resizeTo_length]; omega)
  | some b =>
    cases how : overwriteEntry k v b with
    | some b2 =>
      refine ⟨b2, ?_⟩
      rw [insert_eq_of_overwrite hb how]
      exact List.getElem?_set_self (bucket_some_lt hb)
    | none =>
      refine ⟨b, ?_⟩
      rw [insert_eq_of_drop hb how]
      exact getD_none_eq_some_iff.1 hb

theorem get_insert_self_of_hit {m : MediocreMap V} {k : Key} {v w : V}
    (h : get k m = some w) : get k (insert k v m) = some v := by
  rcases get_some_cases h with ⟨b, p, hb, hf, _, _⟩
  have hbD : m.lookup.getD (hash k) none = some b := getD_none_eq_some_iff.2 hb
  cases how : overwriteEntry k v b with
  | none =>
    rw [overwriteEntry_eq_none_iff, hf] at how
    exact absurd how (by simp)
  | some b2 =>
    rw [insert_eq_of_overwrite hbD how]
    rw [get_bucket (show (m.lookup.set (hash k) (some b2))[hash k]? = some (some b2)
      from List.getElem?_set_self (bucket_some_lt hbD))]
    rw [overwriteEntry_find?_self how]
    rfl

theorem sum_map_set {A : Type} (f : A → Nat) :
    ∀ (l : List A) (i : Nat) (a : A) (h : i < l.length),
    ((l.set i a).map f).sum + f (l.get ⟨i, h⟩) = (l.map f).sum + f a
  | [], i, a, h => absurd h (by simp)
  | x :: xs, 0, a, h => by
    simp only [List.set, List.map, List.sum_cons, List.get]
    omega
  | x :: xs, i + 1, a, h => by
    have ih := sum_map_set f xs i a (by simpa using h)
    simp only [List.set, List.map, List.sum_cons, List.get]
    omega

theorem getElem?_eq_get {A : Type} {l : List A} {i : Nat} {x : A}
    (h : l[i]? = some x) (hlt : i < l.length) : l.get ⟨i, hlt⟩ = x := by
  rw [List.getElem?_eq_getElem hlt] at h
  simpa [List.get_eq_getElem] using h

theorem len_insert_of_bucket_some {m : MediocreMap V} {k : Key} {v : V}
    {b : List (Key × V)} (h : m.lookup[hash k]? = some (some b)) :
    len (insert k v m) = len m := by
  have hbD : m.lookup.getD (hash k) none = some b := getD_none_eq_some_iff.2 h
  have hlt := bucket_some_lt hbD
  cases how : overwriteEntry k v b with
  | none => rw [insert_eq_of_drop hbD how]
  | some b2 =>
    rw [insert_eq_of_overwrite hbD how]
    unfold len
    dsimp only
    have hex := sum_map_set (fun o => (o.getD []).length) m.lookup (hash k)
      (some b2) hlt
    rw [getElem?_eq_get h hlt] at hex
    have hlen := overwriteEntry_length how
    simp only [Option.getD_some] at hex
    omega

/-! ## Preservation of the structural invariant -/

theorem WF_new : WF (new : MediocreMap V) := by
  intro i ch h
  simp [new] at h

theorem WF_insert {m : MediocreMap V} (k : Key) (v : V) (h : WF m) :
    WF (insert k v m) := by
  intro i ch hch
  cases hb : m.lookup.getD (hash k) none with
  | none =>
    rw [insert_eq_of_bucket_none hb] at hch
    by_cases hi : i = hash k
    · subst hi
      rw [List.getElem?_set_self (by rw [resizeTo_length]; omega)] at hch
      cases hch
      constructor
      · simp
      · intro p hp
        simp only [List.mem_singleton] at hp
        subst hp
        rfl
    · rw [List.getElem?_set_ne (fun hx => hi hx.symm)] at hch
      by_cases hj : i < m.lookup.length
      · rw [resizeTo_getElem?_lt hj] at hch
        exact h i ch hch
      · by_cases hj2 : i ≤ hash k
        · rw [resizeTo_getElem?_ge (by omega) hj2] at hch
          exact absurd hch (by simp)
        · rw [List.getElem?_eq_none (by rw [resizeTo_length]; omega)] at hch
          exact absurd hch (by simp)
  | some b =>
    have hlt := bucket_some_lt hb
    cases how : overwriteEntry k v b with
    | none =>
      rw [insert_eq_of_drop hb how] at hch
      exact h i ch hch
    | some b2 =>
      rw [insert_eq_of_overwrite hb how] at hch
      by_cases hi : i = hash k
      · subst hi
        rw [List.getElem?_set_self hlt] at hch
        cases hch
        have hold := h (hash k) b (getD_none_eq_some_iff.1 hb)
        constructor
        · rw [overwriteEntry_length how]
          exact hold.1
        · intro p hp
          rcases overwriteEntry_mem how p hp with h1 | h1
          · subst h1
            rfl
          · exact hold.2 p h1
      · rw [List.getElem?_set_ne (fun hx => hi hx.symm)] at hch
        exact h i ch hch

theorem WF_remove {m : MediocreMap V} (k : Key) (h : WF m) :
    WF (remove k m).2 := by
  cases hb : m.lookup[hash k]? with
  | none => rw [remove_of_oob hb]; exact h
  | some o =>
    cases o with
    | none => rw [remove_of_bucket_none hb]; exact h
    | some b =>
      cases hr : removeEntry k b with
      | none => rw [remove_of_find_none hb hr]; exact h
      | some pr =>
        cases pr with
        | mk v b2 =>
          rw [remove_of_hit hb hr]
          intro i ch hch
          by_cases hi : i = hash k
          · subst hi
            have hlt : hash k < m.lookup.length := by
              by_contra hge
              rw [List.getElem?_eq_none (by omega)] at hb
              exact absurd hb (by simp)
            rw [List.getElem?_set_self hlt] at hch
            cases hch
            have hold := h (hash k) b hb
            constructor
            · have := removeEntry_length hr
              omega
            · intro p hp
              exact hold.2 p (removeEntry_mem hr p hp)
          · rw [List.getElem?_set_ne (fun hx => hi hx.symm)] at hch
            exact h i ch hch

theorem Reach_WF {m : MediocreMap V} (h : Reach m) : WF m := by
  induction h with
  | base => exact WF_new
  | step_insert k v m _ ih => exact WF_insert k v ih
  | step_remove k m _ ih => exact WF_remove k ih

/-! ## Hash bound -/

theorem foldl_xor_lt {k : List Nat} (hk : ∀ b ∈ k, b < 256) :
    ∀ {acc : Nat}, acc < 256 → k.foldl (fun state x => state ^^^ x) acc < 256 := by
  induction k with
  | nil => intro acc h; simpa using h
  | cons x xs ih =>
    intro acc h
    simp only [List.foldl_cons]
    exact ih (fun b hb => hk b (List.mem_cons_of_mem _ hb))
      (Nat.xor_lt_two_pow (n := 8) h (hk x (List.mem_cons_self _ _)))

theorem hash_lt_256 {k : List Nat} (hk : ∀ b ∈ k, b < 256) : hash k < 256 :=
  foldl_xor_lt hk (by omega)

/-! ## Iteration machinery -/

theorem mem_flatten_filterMap {l : List (Option (List (Key × V)))}
    {p : Key × V} :
    p ∈ (l.filterMap id).flatten ↔
      ∃ (i : Nat) (ch : List (Key × V)), l[i]? = some (some ch) ∧ p ∈ ch := by
  induction l with
  | nil => simp
  | cons b rest ih =>
    constructor
    · intro hp
      cases b with
      | none =>
        rw [List.filterMap_cons_none (f := id) rfl] at hp
        rcases ih.1 hp with ⟨i, ch, h1, h2⟩
        exact ⟨i + 1, ch, by simpa using h1, h2⟩
      | some ch0 =>
        rw [List.filterMap_cons_some (f := id) rfl] at hp
        rw [List.flatten_cons, List.mem_append] at hp
        rcases hp with hp | hp
        · exact ⟨0, ch0, by simp, hp⟩
        · rcases ih.1 hp with ⟨i, ch, h1, h2⟩
          exact ⟨i + 1, ch, by simpa using h1, h2⟩
    · rintro ⟨i, ch, h1, h2⟩
      cases i with
      | zero =>
        simp only [List.getElem?_cons_zero, Option.some.injEq] at h1
        subst h1
        rw [List.filterMap_cons_some (f := id) rfl, List.flatten_cons, List.mem_append]
        exact Or.inl h2
      | succ n =>
        simp only [List.getElem?_cons_succ] at h1
        have hmem := ih.2 ⟨n, ch, h1, h2⟩
        cases b with
        | none => rw [List.filterMap_cons_none (f := id) rfl]; exact hmem
        | some ch0 =>
          rw [List.filterMap_cons_some (f := id) rfl, List.flatten_cons, List.mem_append]
          exact Or.inr hmem

theorem len_eq_flatten_length (l : List (Option (List (Key × V)))) :
    (l.map (fun b => (b.getD []).length)).sum =
      ((l.filterMap id).flatten).length := by
  induction l with
  | nil => simp
  | cons b rest ih =>
    cases b with
    | none => simpa using ih
    | some ch => simp [List.filterMap_cons_some (f := id) rfl, ih]

theorem len_eq_iterList_length (m : MediocreMap V) :
    len m = (iterList m).length :=
  len_eq_flatten_length m.lookup

/-- The chains of a bucket-list suffix, whose bucket indices in the full
list start at `base`: each chain has at most one entry and its entries hash
to its (global) index. -/
def chainsFrom (base : Nat) (l : List (Option (List (Key × V)))) : Prop :=
  ∀ i ch, l[i]? = some (some ch) → ch.length ≤ 1 ∧ ∀ p ∈ ch, hash p.1 = base + i

theorem chainsFrom_cons_head {base : Nat} {b : Option (List (Key × V))}
    {rest : List (Option (List (Key × V)))} (h : chainsFrom base (b :: rest)) :
    ∀ ch, b = some ch → ch.length ≤ 1 ∧ ∀ p ∈ ch, hash p.1 = base := by
  intro ch hb
  have := h 0 ch (by simp [hb])
  simpa using this

theorem chainsFrom_cons_tail {base : Nat} {b : Option (List (Key × V))}
    {rest : List (Option (List (Key × V)))} (h : chainsFrom base (b :: rest)) :
    chainsFrom (base + 1) rest := by
  intro i ch hch
  have := h (i + 1) ch (by simpa using hch)
  constructor
  · exact this.1
  · intro p hp
    have := this.2 p hp
    omega

theorem wf_chainsFrom {m : MediocreMap V} (h : WF m) : chainsFrom 0 m.lookup := by
  intro i ch hch
  have := h i ch hch
  constructor
  · exact this.1
  · intro p hp
    have := this.2 p hp
    omega

theorem flat_hash_lb {base : Nat} {l : List (Option (List (Key × V)))}
    (h : chainsFrom base l) :
    ∀ p ∈ (l.filterMap id).flatten, base ≤ hash p.1 := by
  intro p hp
  rcases mem_flatten_filterMap.1 hp with ⟨i, ch, h1, h2⟩
  have := (h i ch h1).2 p h2
  omega

theorem nodup_of_length_le_one {A : Type} {l : List A} (h : l.length ≤ 1) :
    l.Nodup := by
  cases l with
  | nil => exact List.nodup_nil
  | cons x xs =>
    cases xs with
    | nil => simp
    | cons y ys => simp at h

theorem nodup_hash_flatten {l : List (Option (List (Key × V)))} :
    ∀ {base : Nat}, chainsFrom base l →
      (((l.filterMap id).flatten).map (fun p => hash p.1)).Nodup := by
  induction l with
  | nil => intro base _; simp
  | cons b rest ih =>
    intro base h
    cases b with
    | none =>
      rw [List.filterMap_cons_none (f := id) rfl]
      exact ih (chainsFrom_cons_tail h)
    | some ch =>
      rw [List.filterMap_cons_some (f := id) rfl, List.flatten_cons, List.map_append]
      rw [List.nodup_append]
      refine ⟨?_, ih (chainsFrom_cons_tail h), ?_⟩
      · apply nodup_of_length_le_one
        rw [List.length_map]
        exact (chainsFrom_cons_head h ch rfl).1
      · intro x hx hx2
        rcases List.mem_map.1 hx with ⟨p, hp, hpx⟩
        rcases List.mem_map.1 hx2 with ⟨q, hq, hqx⟩
        have h1 : hash p.1 = base := (chainsFrom_cons_head h ch rfl).2 p hp
        have h2 : base + 1 ≤ hash q.1 :=
          flat_hash_lb (chainsFrom_cons_tail h) q hq
        omega

theorem nodup_keys_iterList {m : MediocreMap V} (h : WF m) :
    ((iterList m).map Prod.fst).Nodup := by
  have h1 : ((iterList m).map (fun p => hash p.1)).Nodup :=
    nodup_hash_flatten (wf_chainsFrom h)
  have h3 : (((iterList m).map Prod.fst).map hash).Nodup := by
    rw [List.map_map]
    exact h1
  exact h3.of_map hash

theorem get_isSome_iff_mem_iterList {m : MediocreMap V} (h : WF m) (k : Key) :
    (∃ v, get k m = some v) ↔ k ∈ (iterList m).map Prod.fst := by
  constructor
  · rintro ⟨v, hv⟩
    rcases get_some_cases hv with ⟨b, p, hb, hf, _, hp1⟩
    refine List.mem_map.2 ⟨p, ?_, hp1⟩
    exact mem_flatten_filterMap.2 ⟨hash k, b, hb, List.mem_of_find?_eq_some hf⟩
  · intro hk
    rcases List.mem_map.1 hk with ⟨p, hp, hpk⟩
    rcases mem_flatten_filterMap.1 hp with ⟨i, ch, h1, h2⟩
    have hi : hash k = i := by
      have hh := (h i ch h1).2 p h2
      rw [hpk] at hh
      exact hh
    rw [← hi] at h1
    have hfind : (ch.find? (fun q => q.1 == k)).isSome :=
      List.find?_isSome.2 ⟨p, h2, by simp [hpk]⟩
    rcases Option.isSome_iff_exists.1 hfind with ⟨q, hq⟩
    exact ⟨q.2, by rw [get_bucket h1, hq]; rfl⟩

theorem get_insert_of_ne {m : MediocreMap V} {k k2 : Key} {v : V}
    (hne : k2 ≠ k) : get k2 (insert k v m) = get k2 m := by
  by_cases hh : hash k2 = hash k
  · cases hb : m.lookup.getD (hash k) none with
    | none =>
      rw [insert_eq_of_bucket_none hb]
      have hbk : (((resizeTo m.lookup (hash k)).set (hash k)
          (some [(k, v)])))[hash k2]? = some (some [(k, v)]) := by
        rw [hh]
        exact List.getElem?_set_self (by rw [resizeTo_length]; omega)
      rw [get_bucket hbk]
      have hold : get k2 m = none := by
        rcases getD_none_eq_none_iff.1 hb with h1 | h1
        · exact get_bucket_none (by rw [hh]; exact h1)
        · have := List.getElem?_eq_none_iff.1 h1
          exact get_of_ge (by omega)
      rw [hold, List.find?_cons_of_neg _ (by simp [Ne.symm hne])]
      rfl
    | some b =>
      cases how : overwriteEntry k v b with
      | some b2 =>
        rw [insert_eq_of_overwrite hb how]
        have hset : ((m.lookup.set (hash k) (some b2)))[hash k2]? =
            some (some b2) := by
          rw [hh]
          exact List.getElem?_set_self (bucket_some_lt hb)
        have hb2 : m.lookup[hash k2]? = some (some b) := by
          rw [hh]
          exact getD_none_eq_some_iff.1 hb
        rw [get_bucket hset, get_bucket hb2, overwriteEntry_find?_ne hne how]
      | none => rw [insert_eq_of_drop hb how]
  · exact get_insert_of_hash_ne hh

/-! ## Claims -/

/-- C1: the spec's round-trip property — for every key `k` and value `v`,
after `insert(k, v)`, `get(k)` returns `Some(v)` — fails on the code: when
the bucket at `hash k` already holds a different key (here the byte strings
"ab" and "ba", which both XOR-hash to 3), `insert` silently discards the new
entry instead of appending it to the chain, so `get` returns `none`. -/
theorem C1_collision_drops_insert :
    get [97, 98] (insert [97, 98] 0 (new : MediocreMap Nat)) = some 0 ∧
    get [98, 97] (insert [98, 97] 1
      (insert [97, 98] 0 (new : MediocreMap Nat))) = none := by
  exact ⟨by decide, by decide⟩

/-- C2: on every reachable map, each bucket chain holds at most one entry;
consequently an insert whose key hashes onto a bucket already holding a
different key leaves the map completely unchanged. -/
theorem C2_singleton_chains_and_collision_noop {m : MediocreMap V}
    (hm : Reach m) :
    (∀ (i : Nat) (ch : List (Key × V)),
      m.lookup[i]? = some (some ch) → ch.length ≤ 1) ∧
    (∀ (k : Key) (v : V) (ch : List (Key × V)) (p : Key × V),
      m.lookup[hash k]? = some (some ch) → p ∈ ch → p.1 ≠ k →
      insert k v m = m) := by
  have hwf := Reach_WF hm
  constructor
  · intro i ch hch
    exact (hwf i ch hch).1
  · intro k v ch p hch hp hne
    have hlen := (hwf (hash k) ch hch).1
    have hall : ∀ q ∈ ch, q.1 ≠ k := by
      intro q hq
      have hqp : q = p := by
        cases ch with
        | nil => simp at hp
        | cons a rest =>
          cases rest with
          | nil =>
            simp only [List.mem_singleton] at hp hq
            rw [hp, hq]
          | cons c rest2 => simp at hlen
      rw [hqp]
      exact hne
    have how : overwriteEntry k v ch = none := by
      rw [overwriteEntry_eq_none_iff, List.find?_eq_none]
      intro x hx
      simp [hall x hx]
    exact insert_eq_of_drop (getD_none_eq_some_iff.2 hch) how

theorem C2_witness :
    insert [98, 97] (1 : Nat) (insert [97, 98] 0 new) =
      insert [97, 98] 0 new := by
  refine (C2_singleton_chains_and_collision_noop
    (Reach.step_insert [97, 98] 0 new Reach.base)).2
    [98, 97] 1 [([97, 98], 0)] ([97, 98], 0) ?_ ?_ ?_
  · decide
  · decide
  · decide

/-- C3 counterexample: after inserting keys `[0]` and `[1]` the load factor
is `2/2 = 1 ≥ 0.7` and `[2]` is a fresh key, yet inserting `[2]` makes the
capacity 3, not double (4): the code has no load-factor resize at all. -/
theorem C3_counterexample :
    10 * len (insert [1] 1 (insert [0] 0 (new : MediocreMap Nat))) ≥
      7 * capacity (insert [1] 1 (insert [0] 0 (new : MediocreMap Nat))) ∧
    get [2] (insert [1] 1 (insert [0] 0 (new : MediocreMap Nat))) = none ∧
    capacity (insert [2] 2 (insert [1] 1
        (insert [0] 0 (new : MediocreMap Nat)))) ≠
      2 * capacity (insert [1] 1 (insert [0] 0 (new : MediocreMap Nat))) := by
  refine ⟨?_, ?_, ?_⟩ <;> decide

/-- C3 amended: the code never resizes on load factor and never rehashes:
an insert leaves the capacity at `max (old capacity) (hash key + 1)` (it only
pads the bucket array with empty buckets when the hash index is out of
range), and the value seen by `get` for every key other than the inserted
one is unchanged. -/
theorem C3_no_resize (k : Key) (v : V) (m : MediocreMap V) :
    capacity (insert k v m) = max (capacity m) (hash k + 1) ∧
    ∀ k2 : Key, k2 ≠ k → get k2 (insert k v m) = get k2 m :=
  ⟨lookup_length_insert k v m, fun _ h => get_insert_of_ne h⟩

theorem C3_witness :
    capacity (insert [2] (2 : Nat) (insert [1] 1 (insert [0] 0 new))) =
      max (capacity (insert [1] (1 : Nat) (insert [0] 0 new)))
        (hash [2] + 1) ∧
    get [1] (insert [2] (2 : Nat) (insert [1] 1 (insert [0] 0 new))) =
      get [1] (insert [1] (1 : Nat) (insert [0] 0 new)) :=
  ⟨(C3_no_resize [2] 2 (insert [1] 1 (insert [0] 0 new))).1,
   (C3_no_resize [2] 2 (insert [1] 1 (insert [0] 0 new))).2 [1] (by decide)⟩

/-- C4 counterexample: with "ab" ↦ 0 already stored (hash 3), both inserts
of the colliding key "ba" are silently dropped, so after
`insert("ba",1); insert("ba",2)` the lookup `get("ba")` is `none`, not
`Some(2)` as the claim requires. -/
theorem C4_counterexample :
    get [98, 97] (insert [98, 97] 2 (insert [98, 97] 1
      (insert [97, 98] 0 (new : MediocreMap Nat)))) ≠ some 2 := by
  decide

/-- C4 amended: if the first insert of `k` took effect (`get k` returns
`v1` afterwards), then after `insert(k, v2)` the lookup `get k` returns
`v2`; and in every case the second insert leaves the total number of stored
entries unchanged. -/
theorem C4_overwrite (m : MediocreMap V) (k : Key) (v1 v2 : V) :
    (get k (insert k v1 m) = some v1 →
      get k (insert k v2 (insert k v1 m)) = some v2) ∧
    len (insert k v2 (insert k v1 m)) = len (insert k v1 m) := by
  constructor
  · intro h
    exact get_insert_self_of_hit h
  · rcases insert_getElem?_self k v1 m with ⟨b, hb⟩
    exact len_insert_of_bucket_some hb

theorem C4_witness :
    get [97] (insert [97] 2 (insert [97] 1 (new : MediocreMap Nat))) =
      some 2 ∧
    len (insert [97] (2 : Nat) (insert [97] 1 new)) =
      len (insert [97] (1 : Nat) new) :=
  ⟨(C4_overwrite new [97] 1 2).1 (by decide), (C4_overwrite new [97] 1 2).2⟩

/-- C5 counterexample: with "ab" ↦ 0 already stored (hash 3), the insert of
the colliding key "ba" is silently dropped, so the subsequent
`remove("ba")` returns `none`, not `Some(1)` as the claim requires. -/
theorem C5_counterexample :
    (remove [98, 97] (insert [98, 97] 1
      (insert [97, 98] 0 (new : MediocreMap Nat)))).1 ≠ some 1 := by
  decide

/-- C5 amended: on a reachable map, if `insert(k, v)` took effect
(`get k` returns `v` afterwards) then `remove k` returns `Some v`, after
which `get k` returns `none` and a second `remove k` returns `none` and
leaves the map unchanged; and removing any key not present (`get` returns
`none`) returns `none` and leaves the container unchanged. -/
theorem C5_remove_behaviour (m : MediocreMap V) (k : Key) (v : V)
    (hm : Reach m) :
    (get k (insert k v m) = some v →
      (remove k (insert k v m)).1 = some v ∧
      get k (remove k (insert k v m)).2 = none ∧
      remove k (remove k (insert k v m)).2 =
        (none, (remove k (insert k v m)).2)) ∧
    (get k m = none → remove k m = (none, m)) := by
  have hwf1 : WF (insert k v m) := WF_insert k v (Reach_WF hm)
  constructor
  · intro h
    rcases get_some_cases h with ⟨b, p, hb, hf, hp2, hp1⟩
    have hlen := (hwf1 (hash k) b hb).1
    have hpmem := List.mem_of_find?_eq_some hf
    have hlt : hash k < (insert k v m).lookup.length := by
      by_contra hge
      rw [List.getElem?_eq_none (by omega)] at hb
      exact absurd hb (by simp)
    have hb1 : b = [p] := by
      cases b with
      | nil => simp at hpmem
      | cons a rest =>
        cases rest with
        | nil =>
          simp only [List.mem_singleton] at hpmem
          rw [hpmem]
        | cons c rest2 => simp at hlen
    subst hb1
    have hrem : removeEntry k [p] = some (p.2, []) := by
      unfold removeEntry
      rw [if_pos (by simp [hp1])]
    have hhit := remove_of_hit hb hrem
    rw [hhit]
    have hgetnone : get k (⟨(insert k v m).lookup.set (hash k)
        (some ([] : List (Key × V)))⟩ : MediocreMap V) = none := by
      rw [get_bucket (show ((insert k v m).lookup.set (hash k)
        (some ([] : List (Key × V))))[hash k]? = some (some [])
        from List.getElem?_set_self hlt)]
      rfl
    exact ⟨by rw [hp2], hgetnone, remove_of_miss hgetnone⟩
  · intro h
    exact remove_of_miss h

theorem C5_witness :
    (remove [97] (insert [97] (5 : Nat) new)).1 = some 5 ∧
    get [97] (remove [97] (insert [97] (5 : Nat) new)).2 = none ∧
    remove [97] (remove [97] (insert [97] (5 : Nat) new)).2 =
      (none, (remove [97] (insert [97] (5 : Nat) new)).2) ∧
    remove [2] (new : MediocreMap Nat) = (none, new) := by
  have h1 := (C5_remove_behaviour new [97] (5 : Nat) Reach.base).1 (by decide)
  exact ⟨h1.1, h1.2.1, h1.2.2,
    (C5_remove_behaviour new [2] (0 : Nat) Reach.base).2 (by decide)⟩

/-- C6 counterexample: a freshly constructed map (`MediocreMap::new`) has a
bucket array of length 0, refuting `capacity > 0 after construction`; the
code also computes the bucket index as the raw hash without any modulo
reduction, so the index can lie at or beyond the capacity (here
`hash [97] = 97`, capacity 0). -/
theorem C6_counterexample :
    ¬ (0 < capacity (new : MediocreMap Nat)) ∧
    ¬ (hash [97] < capacity (new : MediocreMap Nat)) := by
  exact ⟨by decide, by decide⟩

/-- C6 amended: construction yields capacity 0, not positive; the bucket
index is `hash key` itself (no modulo), which for byte inputs is < 256;
`get` and `remove` bounds-check and return `none` when the index is at or
beyond the capacity; and `insert` first grows the bucket array so that the
computed index is within the new capacity, never indexing out of range. -/
theorem C6_index_bounds (k : Key) (v : V) (m : MediocreMap V)
    (hk : ∀ b ∈ k, b < 256) :
    capacity (new : MediocreMap V) = 0 ∧
    hash k < 256 ∧
    hash k < capacity (insert k v m) ∧
    (capacity m ≤ hash k → get k m = none ∧ remove k m = (none, m)) := by
  refine ⟨rfl, hash_lt_256 hk, ?_, ?_⟩
  · show hash k < (insert k v m).lookup.length
    rw [lookup_length_insert]
    omega
  · intro h
    exact ⟨get_of_ge h, remove_of_oob (List.getElem?_eq_none h)⟩

theorem C6_witness :
    capacity (new : MediocreMap Nat) = 0 ∧
    hash [97] < 256 ∧
    hash [97] < capacity (insert [97] (1 : Nat) new) ∧
    get [97] (new : MediocreMap Nat) = none ∧
    remove [97] (new : MediocreMap Nat) = (none, new) := by
  have h := C6_index_bounds [97] (1 : Nat) new (by decide)
  exact ⟨h.1, h.2.1, h.2.2.1,
    (h.2.2.2 (by decide)).1, (h.2.2.2 (by decide)).2⟩

/-- C7: after any sequence of `insert`/`remove` operations (any reachable
map), `len` — modelled from the spec as the total entry count — equals the
number of pairs produced by a full borrowed iteration, and equals the
number of distinct keys currently mapped: the iteration's key list has no
duplicates and contains exactly the keys on which `get` succeeds. -/
theorem C7_count_invariant (m : MediocreMap V) (hm : Reach m) :
    len m = (iterList m).length ∧
    ((iterList m).map Prod.fst).Nodup ∧
    ∀ k : Key, (∃ v, get k m = some v) ↔
      k ∈ (iterList m).map Prod.fst := by
  have hwf := Reach_WF hm
  exact ⟨len_eq_iterList_length m, nodup_keys_iterList hwf,
    fun k => get_isSome_iff_mem_iterList hwf k⟩

theorem C7_witness :
    len (insert [97] (5 : Nat) new) =
      (iterList (insert [97] (5 : Nat) new)).length ∧
    ((iterList (insert [97] (5 : Nat) new)).map Prod.fst).Nodup ∧
    [97] ∈ (iterList (insert [97] (5 : Nat) new)).map Prod.fst := by
  have h := C7_count_invariant (insert [97] (5 : Nat) new)
    (Reach.step_insert [97] 5 new Reach.base)
  exact ⟨h.1, h.2.1, (h.2.2 [97]).1 ⟨5, by decide⟩⟩

/-- C8: both bulk constructors — from a fixed array (`From<[(K, V); N]>`)
and from an arbitrary iterator (`FromIterator`) — build exactly the map
obtained by constructing an empty container and calling `insert` for each
pair in order; in particular, construction from `[("a", 1), ("a", 2)]`
(key byte 97) yields one entry and `get "a" = Some 2`: the later duplicate
wins. -/
theorem C8_bulk_construction :
    (∀ l : List (Key × V), from_array l = spec_bulkConstruct l ∧
      from_iter l = spec_bulkConstruct l) ∧
    len (from_array [([97], (1 : Nat)), ([97], 2)]) = 1 ∧
    get [97] (from_array [([97], (1 : Nat)), ([97], 2)]) = some 2 := by
  refine ⟨fun l => ⟨rfl, rfl⟩, by decide, by decide⟩

/-- C9: the indexed-lookup operation (`std::ops::Index`, modelled with the
panic of `unwrap` as the `Except.error` branch) returns the stored value
when the key is present and aborts with the unrecoverable error when the
key is absent — it never returns an optional or sentinel value. -/
theorem C9_index_unwrap (m : MediocreMap V) (k : Key) :
    (∀ v : V, get k m = some v → index k m = Except.ok v) ∧
    (get k m = none → index k m = Except.error ()) := by
  constructor
  · intro v h
    unfold index
    rw [h]
  · intro h
    unfold index
    rw [h]

theorem C9_witness :
    index [97] (insert [97] (3 : Nat) new) = Except.ok 3 ∧
    index [98] (insert [97] (3 : Nat) new) = Except.error () :=
  ⟨(C9_index_unwrap (insert [97] 3 new) [97]).1 3 (by decide),
   (C9_index_unwrap (insert [97] 3 new) [98]).2 (by decide)⟩

/-- C10: `get` and `remove` are total for every key and map state: when the
key's hash index is at or beyond the bucket array's length — in particular
on a freshly constructed empty map, whose array has length 0 — both return
`none` and `remove` leaves the map unchanged; and `insert` never reads the
bucket array out of bounds because it first grows the array to cover the
computed index. -/
theorem C10_total_lookups (m : MediocreMap V) (k : Key) (v : V) :
    (capacity m ≤ hash k → get k m = none ∧ remove k m = (none, m)) ∧
    get k (new : MediocreMap V) = none ∧
    remove k (new : MediocreMap V) = (none, new) ∧
    hash k < capacity (insert k v m) := by
  refine ⟨fun h => ⟨get_of_ge h, remove_of_oob (List.getElem?_eq_none h)⟩,
    ?_, ?_, ?_⟩
  · exact get_of_ge (Nat.zero_le _)
  · exact remove_of_oob (List.getElem?_eq_none (Nat.zero_le _))
  · show hash k < (insert k v m).lookup.length
    rw [lookup_length_insert]
    omega

theorem C10_witness :
    get [97] (new : MediocreMap Nat) = none ∧
    remove [97] (new : MediocreMap Nat) = (none, new) ∧
    hash [97] < capacity (insert [97] (1 : Nat) new) := by
  have h := C10_total_lookups (new : MediocreMap Nat) [97] 1
  exact ⟨(h.1 (by decide)).1, (h.1 (by decide)).2, h.2.2.2⟩

end MediocreMap
